import Mathlib

/-!
Verification development for the transactional object catalog (`CatalogSet`)
of `duckdb/catalog/catalog_set.hpp`.

The repository excerpt contains the header `catalog_set.hpp` (data layout of
`MappingValue`, the `CatalogSet` fields `mapping`, `entries`, `current_entry`,
`defaults`, and the inline body of `CatalogSet::Scan`), but not the
implementation file `catalog_set.cpp`.  The member-function bodies
(`CreateEntry`, `AlterEntry`, `DropEntry`, `GetEntry`, `SimilarEntry`, `Undo`,
`GetEntryForTransaction`, `GetMapping`, `HasConflict`, `UseTimestamp`) are
therefore modelled from the specification (spec.md §4–§7), faithful to its
words; `Scan` follows the source body in the header.

Chains ("previous version" / "next-older binding" linked lists) are embedded
as Lean lists, newest first.  The two hash maps of the header are embedded as
association lists.  Payloads (kind-specific schema metadata) are abstracted as
natural numbers, alterations as functions on payloads.
-/

set_option autoImplicit false

/-- Modelled from the spec (§6, upstream collaborator contract): the
transaction manager exposes, for every transaction id, whether that
transaction has committed and, if so, at which commit timestamp
(`IsCommitted` / `CommitTimestamp`). -/
structure TransactionManager where
  commitOf : Nat → Option Nat

/-- Modelled from the spec (§6): the calling transaction's identity —
`TransactionId()` and `StartTimestamp()`. -/
structure Transaction where
  id : Nat
  startTime : Nat
deriving DecidableEq, Repr

/-- One node of an object's version chain (source: `CatalogEntry` of
`catalog_entry.hpp`, referenced by `catalog_set.hpp`): logical name, payload
(abstracted), creating-transaction timestamp and deleted flag.  The owning
`child` link to the previous (older) version is represented by list order:
a chain is a `List CatalogEntry`, newest first. -/
structure CatalogEntry where
  name : String
  payload : Nat
  timestamp : Nat
  deleted : Bool
deriving DecidableEq, Repr

/-- One node of a name's binding chain (source: `struct MappingValue` in
`catalog_set.hpp`, lines 28–37): target slot `index`, creation `timestamp`,
`deleted` flag.  The owning `child` link is represented by list order. -/
structure MappingValue where
  index : Nat
  timestamp : Nat
  deleted : Bool
deriving DecidableEq, Repr

/-- Modelled from the spec (§7, error taxonomy): result values of the
mutating catalog operations. -/
inductive CatalogResult where
  | ok
  | notFound
  | alreadyExists
  | transactionConflict
  | dependencyError
deriving DecidableEq, Repr

/-- The catalog set (source: `class CatalogSet` in `catalog_set.hpp`):
`mapping` is the name index (name → binding chain, newest first), `entries`
the object slot table (slot index → version chain, newest first),
`current_entry` the monotonically increasing slot-index counter, `defaults`
the optional lazily-materializing default-object generator, and `depends_on`
the view of the external dependency manager's registrations
(pairs (dependent slot, dependee slot), spec §6). -/
structure CatalogSet where
  mapping : List (String × List MappingValue)
  entries : List (Nat × List CatalogEntry)
  current_entry : Nat
  depends_on : List (Nat × Nat)
  defaults : String → Option Nat

/-- First-match lookup in an association list. -/
def lookupAssoc {κ α : Type} [DecidableEq κ] : List (κ × α) → κ → Option α
  | [], _ => none
  | p :: rest, k => if p.1 = k then some p.2 else lookupAssoc rest k

/-- Replace the value at a key (first occurrence) in an association list, or
append the pair at the end when the key is absent. -/
def setAssoc {κ α : Type} [DecidableEq κ] : List (κ × α) → κ → α → List (κ × α)
  | [], k, v => [(k, v)]
  | p :: rest, k, v => if p.1 = k then (k, v) :: rest else p :: setAssoc rest k v

/-- Modelled from the spec (§4.1, source declaration
`CatalogSet::UseTimestamp`): a chain node with creation timestamp `t` is
visible to a transaction iff the node was created by the transaction itself,
or by a transaction that committed before the caller's start timestamp. -/
def UseTimestamp (tm : TransactionManager) (txn : Transaction) (t : Nat) : Bool :=
  t == txn.id ||
    (match tm.commitOf t with
     | some c => decide (c < txn.startTime)
     | none => false)

/-- Modelled from the spec (§4.5, source declaration
`CatalogSet::HasConflict`): a write on a chain head conflicts iff the head's
creation timestamp belongs to a transaction other than the caller's and that
transaction has not committed. -/
def HasConflict (tm : TransactionManager) (txn : Transaction) (t : Nat) : Bool :=
  !(t == txn.id) && (tm.commitOf t).isNone

/-- Modelled from the spec (§4.1, traversal policy): walk a chain newest to
oldest and return the first node visible to the transaction. -/
def firstVisible {α : Type} (tm : TransactionManager) (txn : Transaction)
    (ts : α → Nat) : List α → Option α
  | [] => none
  | x :: xs => if UseTimestamp tm txn (ts x) then some x else firstVisible tm txn ts xs

/-- Look a key up in a keyed family of chains and resolve the first visible
node of its chain. -/
def resolveAt {κ : Type} [DecidableEq κ] (tm : TransactionManager) (txn : Transaction)
    {α : Type} (ts : α → Nat) (l : List (κ × List α)) (k : κ) : Option α :=
  (lookupAssoc l k).bind (firstVisible tm txn ts)

/-- Modelled from the spec (§4.1, source declaration `CatalogSet::GetMapping`):
resolve the binding of a name that is visible to the calling transaction. -/
def GetMapping (tm : TransactionManager) (txn : Transaction) (cs : CatalogSet)
    (name : String) : Option MappingValue :=
  resolveAt tm txn MappingValue.timestamp cs.mapping name

/-- Modelled from the spec (§4.1, source declaration
`CatalogSet::GetEntryForTransaction`): given a version chain (newest first),
the version valid for this transaction. -/
def GetEntryForTransaction (tm : TransactionManager) (txn : Transaction)
    (chain : List CatalogEntry) : Option CatalogEntry :=
  firstVisible tm txn CatalogEntry.timestamp chain

/-- Modelled from the spec (§6, default-object generator collaborator):
`TryGenerate(name)` materializes a built-in object on a lookup miss. -/
def genDefault (cs : CatalogSet) (name : String) : Option CatalogEntry :=
  (cs.defaults name).map (fun p => { name := name, payload := p, timestamp := 0, deleted := false })

/-- Modelled from the spec (§4.7, source declaration `CatalogSet::GetEntry`):
resolve the visible binding for the name; on a miss (no visible binding, or a
visible binding marked deleted) consult the default generator; otherwise walk
the bound slot's version chain and return the visible, non-deleted version. -/
def GetEntry (tm : TransactionManager) (txn : Transaction) (cs : CatalogSet)
    (name : String) : Option CatalogEntry :=
  match GetMapping tm txn cs name with
  | none => genDefault cs name
  | some b =>
    if b.deleted then genDefault cs name
    else
      match resolveAt tm txn CatalogEntry.timestamp cs.entries b.index with
      | some v => if v.deleted then none else some v
      | none => none

/-- The visible, live contribution of one slot-table entry to a scan
(the body of the loop of `CatalogSet::Scan`, `catalog_set.hpp` lines 70–76). -/
def visibleLive (tm : TransactionManager) (txn : Transaction)
    (p : Nat × List CatalogEntry) : Option CatalogEntry :=
  match GetEntryForTransaction tm txn p.2 with
  | some v => if v.deleted then none else some v
  | none => none

/-- The loop of `CatalogSet::Scan` (source, `catalog_set.hpp` lines 70–76):
for each slot-table entry resolve the version valid for this transaction and,
when it is not deleted, invoke the callback.  The list of callback arguments,
in iteration order, is returned. -/
def scanList (tm : TransactionManager) (txn : Transaction) :
    List (Nat × List CatalogEntry) → List CatalogEntry
  | [] => []
  | p :: rest =>
    match GetEntryForTransaction tm txn p.2 with
    | some v => if v.deleted then scanList tm txn rest else v :: scanList tm txn rest
    | none => scanList tm txn rest

/-- Source `CatalogSet::Scan` (`catalog_set.hpp` lines 67–77): under the
catalog lock, walk every slot-table entry once. -/
def Scan (tm : TransactionManager) (txn : Transaction) (cs : CatalogSet) :
    List CatalogEntry :=
  scanList tm txn cs.entries

/-- Modelled from the spec (§4.2, conflict check of `CreateEntry`): creation
is refused when the newest binding is not visible to the caller and not
deleted, or when the binding resolved by the §4.1 traversal exists and is not
deleted. -/
def createAllowed (tm : TransactionManager) (txn : Transaction)
    (chain : List MappingValue) : Bool :=
  match chain with
  | [] => true
  | newest :: _ =>
    if !UseTimestamp tm txn newest.timestamp && !newest.deleted then false
    else
      match firstVisible tm txn MappingValue.timestamp chain with
      | some vb => vb.deleted
      | none => true

/-- Modelled from the spec (§4.2, source declaration
`CatalogSet::CreateEntry`): after the conflict check, allocate a new slot
index, construct the first `ObjectVersion` for it, prepend a new binding
(name → new slot, timestamp = caller's transaction id), and hand the
dependency set to the external dependency manager. -/
def CreateEntry (tm : TransactionManager) (txn : Transaction) (cs : CatalogSet)
    (name : String) (payload : Nat) (dependencies : List Nat) : Bool × CatalogSet :=
  let chain := (lookupAssoc cs.mapping name).getD []
  if createAllowed tm txn chain then
    let idx := cs.current_entry
    (true,
      { cs with
        mapping := setAssoc cs.mapping name
          ({ index := idx, timestamp := txn.id, deleted := false } :: chain),
        entries := setAssoc cs.entries idx
          [{ name := name, payload := payload, timestamp := txn.id, deleted := false }],
        current_entry := idx + 1,
        depends_on := dependencies.map (fun d => (idx, d)) ++ cs.depends_on })
  else (false, cs)

/-- Modelled from the spec (§4.3, source declaration
`CatalogSet::AlterEntry`): resolve the visible version; fail `notFound` if
none; fail `transactionConflict` when the chain head was created by a
different, uncommitted transaction (§4.5); otherwise link a new version,
produced by applying the alteration to the current payload, as the new head
with the caller's transaction id as its creation timestamp. -/
def AlterEntry (tm : TransactionManager) (txn : Transaction) (cs : CatalogSet)
    (name : String) (alteration : Nat → Nat) : CatalogResult × CatalogSet :=
  match GetMapping tm txn cs name with
  | none => (.notFound, cs)
  | some b =>
    if b.deleted then (.notFound, cs)
    else
      match lookupAssoc cs.entries b.index with
      | some (head :: rest) =>
        match GetEntryForTransaction tm txn (head :: rest) with
        | none => (.notFound, cs)
        | some v =>
          if v.deleted then (.notFound, cs)
          else if HasConflict tm txn head.timestamp then (.transactionConflict, cs)
          else
            (.ok,
              { cs with
                entries := setAssoc cs.entries b.index
                  ({ name := name, payload := alteration v.payload,
                     timestamp := txn.id, deleted := false } :: (head :: rest)) })
      | _ => (.notFound, cs)

/-- Whether a slot currently holds a live (visible, non-deleted) object for
the calling transaction. -/
def isLiveSlot (tm : TransactionManager) (txn : Transaction) (cs : CatalogSet)
    (d : Nat) : Bool :=
  match resolveAt tm txn CatalogEntry.timestamp cs.entries d with
  | some v => !v.deleted
  | none => false

/-- Modelled from the spec (§4.4/§6): the dependents of a slot, as registered
with the external dependency manager, that are live and visible to the
caller. -/
def liveDependents (tm : TransactionManager) (txn : Transaction) (cs : CatalogSet)
    (s : Nat) : List Nat :=
  ((cs.depends_on.filter (fun p => p.2 == s)).map Prod.fst).filter
    (fun d => isLiveSlot tm txn cs d)

/-- Name carried by the head of a version chain (for the deletion marker). -/
def headName : List CatalogEntry → String
  | [] => ""
  | v :: _ => v.name

/-- Modelled from the spec (§3, `ObjectVersion` lifecycle): dropping a slot
appends a new version marked deleted, with the dropping transaction's id as
creation timestamp, preserving history for older snapshots. -/
def dropSlot (tid : Nat) (es : List (Nat × List CatalogEntry)) (s : Nat) :
    List (Nat × List CatalogEntry) :=
  match lookupAssoc es s with
  | some chain =>
    setAssoc es s
      ({ name := headName chain, payload := 0, timestamp := tid, deleted := true } :: chain)
  | none => es

/-- Modelled from the spec (§4.4, source declaration
`CatalogSet::DropEntry`): resolve the visible binding (`notFound` if absent
or deleted); conflict check on the version-chain head (§4.5); without
cascade, fail `dependencyError` when live visible dependents exist; with
cascade, drop the dependents first (external dependency manager, inside the
same lock scope); on success append a deleted version and a deleted binding
rather than physically erasing prior ones. -/
def DropEntry (tm : TransactionManager) (txn : Transaction) (cs : CatalogSet)
    (name : String) (cascade : Bool) : CatalogResult × CatalogSet :=
  match GetMapping tm txn cs name with
  | none => (.notFound, cs)
  | some b =>
    if b.deleted then (.notFound, cs)
    else
      match lookupAssoc cs.entries b.index with
      | some (head :: _) =>
        if HasConflict tm txn head.timestamp then (.transactionConflict, cs)
        else if !cascade && !(liveDependents tm txn cs b.index).isEmpty then
          (.dependencyError, cs)
        else
          let es1 := if cascade then
              (liveDependents tm txn cs b.index).foldl (dropSlot txn.id) cs.entries
            else cs.entries
          (.ok,
            { cs with
              entries := dropSlot txn.id es1 b.index,
              mapping := setAssoc cs.mapping name
                ({ index := b.index, timestamp := txn.id, deleted := true } ::
                  ((lookupAssoc cs.mapping name).getD [])) })
      | _ => (.notFound, cs)

/-- Modelled from the spec (§4.6, source declaration `CatalogSet::Undo`):
given the slot whose newest version was created by the rolling-back
transaction, splice that version out: rewind the slot table to the immediate
predecessor and release the discarded node.  Restricted to nodes whose
creation timestamp is the caller's own transaction id (idempotent
otherwise). -/
def Undo (tid : Nat) (cs : CatalogSet) (slot : Nat) : CatalogSet :=
  match lookupAssoc cs.entries slot with
  | some (v :: rest) =>
    if v.timestamp = tid then { cs with entries := setAssoc cs.entries slot rest } else cs
  | _ => cs

/-- Levenshtein distance on character lists (modelled from the spec, §4.7:
`StringUtil::LevenshteinDistance`, the cpp being absent from the excerpt).
The recursion is fueled to stay structural; each recursive call shortens the
combined input by at least one while spending exactly one unit of fuel, so
with fuel equal to the combined length the exhaustion arm is never taken. -/
def levFuel : Nat → List Char → List Char → Nat
  | _, [], ys => ys.length
  | _, xs, [] => xs.length
  | 0, xs, ys => xs.length + ys.length
  | fuel + 1, x :: xs, y :: ys =>
    if x = y then levFuel fuel xs ys
    else 1 + min (levFuel fuel xs (y :: ys)) (min (levFuel fuel (x :: xs) ys) (levFuel fuel xs ys))

/-- Levenshtein (edit) distance between two strings. -/
def LevenshteinDistance (a b : String) : Nat :=
  levFuel (a.length + b.length) a.toList b.toList

/-- The candidate of a list of names with the smallest edit distance to the
query, together with that distance. -/
def bestMatch (q : String) : List String → Option (String × Nat)
  | [] => none
  | n :: rest =>
    match bestMatch q rest with
    | none => some (n, LevenshteinDistance q n)
    | some (m, e) =>
      if LevenshteinDistance q n < e then some (n, LevenshteinDistance q n)
      else some (m, e)

/-- The names whose binding resolved per §4.1 is live (visible and not
deleted) for the calling transaction. -/
def liveNames (tm : TransactionManager) (txn : Transaction) (cs : CatalogSet) :
    List String :=
  cs.mapping.filterMap (fun p =>
    match firstVisible tm txn MappingValue.timestamp p.2 with
    | some b => if b.deleted then none else some p.1
    | none => none)

/-- Modelled from the spec (§4.7, source declaration
`CatalogSet::SimilarEntry`): the live, visible name with minimum edit
distance to the query, or the empty string when none is within the
(parameterized) acceptable threshold. -/
def SimilarEntry (tm : TransactionManager) (txn : Transaction) (cs : CatalogSet)
    (threshold : Nat) (q : String) : String :=
  match bestMatch q (liveNames tm txn cs) with
  | some (n, d) => if d ≤ threshold then n else ""
  | none => ""

/-- A catalog operation issued by one transaction (spec §4). -/
inductive CatalogOp where
  | createOp (name : String) (payload : Nat) (deps : List Nat)
  | alterOp (name : String) (alteration : Nat → Nat)
  | dropOp (name : String) (cascade : Bool)
  | undoOp (slot : Nat)

/-- Whether an operation is one of the three catalog writes of §4.2–§4.4. -/
def CatalogOp.isWrite : CatalogOp → Bool
  | .undoOp _ => false
  | _ => true

/-- Apply one catalog operation on behalf of a transaction, keeping only the
resulting state. -/
def applyOp (tm : TransactionManager) (txn : Transaction) (cs : CatalogSet) :
    CatalogOp → CatalogSet
  | .createOp n p d => (CreateEntry tm txn cs n p d).2
  | .alterOp n f => (AlterEntry tm txn cs n f).2
  | .dropOp n c => (DropEntry tm txn cs n c).2
  | .undoOp s => Undo txn.id cs s

/-- Apply a sequence of catalog operations, left to right. -/
def applyOps (tm : TransactionManager) (txn : Transaction) (ops : List CatalogOp)
    (cs : CatalogSet) : CatalogSet :=
  ops.foldl (applyOp tm txn) cs

/-- Invariant of the slot table (spec §3, Object Slot Table): every assigned
slot index is below the monotonically increasing counter. -/
def SlotInv (cs : CatalogSet) : Prop :=
  ∀ p ∈ cs.entries, p.1 < cs.current_entry

/-! ### Concrete fixtures used by witnesses and counterexamples -/

/-- Fixture: a transaction-manager view in which transaction 1 committed at
timestamp 1 and everything else is uncommitted. -/
def tmW : TransactionManager := ⟨fun t => if t = 1 then some 1 else none⟩

/-- Fixture: a transaction with id 10 and start timestamp 5. -/
def txnW : Transaction := ⟨10, 5⟩

/-- Fixture: the empty catalog. -/
def csEmpty : CatalogSet := ⟨[], [], 0, [], fun _ => none⟩

/-- Fixture: a catalog holding exactly the live objects "orders" and
"customers", both committed at timestamp 1. -/
def csNames : CatalogSet :=
  ⟨[("orders", [⟨0, 1, false⟩]), ("customers", [⟨1, 1, false⟩])],
   [(0, [⟨"orders", 7, 1, false⟩]), (1, [⟨"customers", 3, 1, false⟩])],
   2, [], fun _ => none⟩

/-- Fixture: object "a" (slot 0) has a committed base version and an
uncommitted head version written by transaction 20; object "b" (slot 1) is
live and was registered as depending on slot 0. -/
def csDrop : CatalogSet :=
  ⟨[("a", [⟨0, 1, false⟩]), ("b", [⟨1, 1, false⟩])],
   [(0, [⟨"a", 7, 20, false⟩, ⟨"a", 5, 1, false⟩]), (1, [⟨"b", 9, 1, false⟩])],
   2, [(1, 0)], fun _ => none⟩

/-- Fixture: an empty catalog whose default generator can materialize the
built-in object "pi". -/
def csGen : CatalogSet := ⟨[], [], 0, [], fun s => if s = "pi" then some 42 else none⟩

/-- Fixture: a commit view in which transaction 30 committed at timestamp 7
(and, as in `tmW`, transaction 1 committed at timestamp 1). -/
def tmLate : TransactionManager :=
  ⟨fun t => if t = 30 then some 7 else if t = 1 then some 1 else none⟩

/-- Fixture: the writing transaction with id 30, start timestamp 6. -/
def txnA30 : Transaction := ⟨30, 6⟩

/-- Fixture: a reader that started (timestamp 5) before commit timestamp 7. -/
def txnEarly : Transaction := ⟨10, 5⟩

/-- Fixture: a reader that started (timestamp 9) after commit timestamp 7. -/
def txnLater : Transaction := ⟨40, 9⟩

/-! ### Association-list lemmas -/

theorem lookupAssoc_setAssoc_self {κ α : Type} [DecidableEq κ] (l : List (κ × α)) (k : κ) (v : α) :
    lookupAssoc (setAssoc l k v) k = some v := by
  induction l with
  | nil => simp [setAssoc, lookupAssoc]
  | cons p rest ih =>
    obtain ⟨a, b⟩ := p
    by_cases h : a = k
    · simp [setAssoc, h, lookupAssoc]
    · simp [setAssoc, h, lookupAssoc, ih]

theorem lookupAssoc_setAssoc_ne {κ α : Type} [DecidableEq κ] (l : List (κ × α)) (k k' : κ) (v : α)
    (h : k' ≠ k) : lookupAssoc (setAssoc l k v) k' = lookupAssoc l k' := by
  have hk : ¬ k = k' := fun e => h e.symm
  induction l with
  | nil => simp [setAssoc, lookupAssoc, hk]
  | cons p rest ih =>
    obtain ⟨a, b⟩ := p
    by_cases hp : a = k
    · subst hp
      simp [setAssoc, lookupAssoc, hk]
    · simp only [setAssoc, if_neg hp, lookupAssoc]
      by_cases hp' : a = k'
      · simp [hp']
      · simp [hp', ih]

theorem setAssoc_setAssoc {κ α : Type} [DecidableEq κ] (l : List (κ × α)) (k : κ) (v w : α) :
    setAssoc (setAssoc l k v) k w = setAssoc l k w := by
  induction l with
  | nil => simp [setAssoc]
  | cons p rest ih =>
    obtain ⟨a, b⟩ := p
    by_cases h : a = k
    · simp [setAssoc, h]
    · simp [setAssoc, h, ih]

theorem setAssoc_lookup_self {κ α : Type} [DecidableEq κ] (l : List (κ × α)) (k : κ) (v : α)
    (h : lookupAssoc l k = some v) : setAssoc l k v = l := by
  induction l with
  | nil => simp [lookupAssoc] at h
  | cons p rest ih =>
    obtain ⟨a, b⟩ := p
    by_cases hp : a = k
    · subst hp
      simp only [lookupAssoc, if_pos rfl] at h
      obtain rfl : b = v := by injection h
      simp [setAssoc]
    · simp only [lookupAssoc, if_neg hp] at h
      simp [setAssoc, hp, ih h]

theorem mem_setAssoc {κ α : Type} [DecidableEq κ] (l : List (κ × α)) (k : κ) (v : α) (q : κ × α)
    (h : q ∈ setAssoc l k v) : q = (k, v) ∨ q ∈ l := by
  induction l with
  | nil =>
    simp [setAssoc] at h
    exact Or.inl h
  | cons p rest ih =>
    obtain ⟨a, b⟩ := p
    by_cases hp : a = k
    · simp only [setAssoc, if_pos hp] at h
      rcases List.mem_cons.mp h with h1 | h1
      · exact Or.inl h1
      · exact Or.inr (List.mem_cons_of_mem _ h1)
    · simp only [setAssoc, if_neg hp] at h
      rcases List.mem_cons.mp h with h1 | h1
      · exact Or.inr (List.mem_cons.mpr (Or.inl h1))
      · rcases ih h1 with h2 | h2
        · exact Or.inl h2
        · exact Or.inr (List.mem_cons_of_mem _ h2)

theorem lookupAssoc_mem {κ α : Type} [DecidableEq κ] (l : List (κ × α)) (k : κ) (v : α)
    (h : lookupAssoc l k = some v) : (k, v) ∈ l := by
  induction l with
  | nil => simp [lookupAssoc] at h
  | cons p rest ih =>
    obtain ⟨a, b⟩ := p
    by_cases hp : a = k
    · subst hp
      simp only [lookupAssoc, if_pos rfl] at h
      obtain rfl : b = v := by injection h
      exact List.mem_cons_self _ _
    · simp only [lookupAssoc, if_neg hp] at h
      exact List.mem_cons_of_mem _ (ih h)

theorem lookupAssoc_eq_none {κ α : Type} [DecidableEq κ] (l : List (κ × α)) (k : κ)
    (h : ∀ p ∈ l, p.1 ≠ k) : lookupAssoc l k = none := by
  induction l with
  | nil => simp [lookupAssoc]
  | cons p rest ih =>
    simp only [lookupAssoc, if_neg (h p (List.mem_cons_self _ _))]
    exact ih (fun q hq => h q (List.mem_cons_of_mem _ hq))

/-! ### Visibility-chain lemmas -/

theorem firstVisible_append_invisible {α : Type} (tm : TransactionManager) (txn : Transaction)
    (ts : α → Nat) (pre old : List α)
    (h : ∀ x ∈ pre, UseTimestamp tm txn (ts x) = false) :
    firstVisible tm txn ts (pre ++ old) = firstVisible tm txn ts old := by
  induction pre with
  | nil => rfl
  | cons x xs ih =>
    simp only [List.cons_append, firstVisible, h x (List.mem_cons_self _ _)]
    simp only [Bool.false_eq_true, if_false]
    exact ih (fun y hy => h y (List.mem_cons_of_mem _ hy))

theorem firstVisible_all_invisible {α : Type} (tm : TransactionManager) (txn : Transaction)
    (ts : α → Nat) (chain : List α)
    (h : ∀ x ∈ chain, UseTimestamp tm txn (ts x) = false) :
    firstVisible tm txn ts chain = none := by
  have h2 := firstVisible_append_invisible tm txn ts chain [] h
  simpa using h2

theorem firstVisible_mem {α : Type} (tm : TransactionManager) (txn : Transaction)
    (ts : α → Nat) (chain : List α) (v : α)
    (h : firstVisible tm txn ts chain = some v) : v ∈ chain := by
  induction chain with
  | nil => simp [firstVisible] at h
  | cons x xs ih =>
    by_cases hx : UseTimestamp tm txn (ts x) = true
    · simp only [firstVisible, if_pos hx] at h
      obtain rfl : x = v := by injection h
      exact List.mem_cons_self _ _
    · simp only [firstVisible, if_neg hx] at h
      exact List.mem_cons_of_mem _ (ih h)

/-! ### Chain extension: how a writing transaction may grow the chains -/

/-- Relation `ChainsExt tid ts old new` says that the keyed family of chains `new` is
obtained from `old` by prepending, to existing chains, nodes whose creation
timestamp is `tid`, and by inserting fresh keys whose whole chain carries
timestamp `tid` — exactly the footprint of catalog writes by the transaction
with id `tid`. -/
inductive ChainsExt {κ α : Type} (tid : Nat) (ts : α → Nat) :
    List (κ × List α) → List (κ × List α) → Prop
  | nil : ChainsExt tid ts [] []
  | keep (k : κ) (old new : List α) {l l' : List (κ × List α)}
      (hext : ∃ pre, new = pre ++ old ∧ ∀ x ∈ pre, ts x = tid)
      (h : ChainsExt tid ts l l') :
      ChainsExt tid ts ((k, old) :: l) ((k, new) :: l')
  | fresh (k : κ) (chain : List α) {l l' : List (κ × List α)}
      (hch : ∀ x ∈ chain, ts x = tid) (hk : ∀ p ∈ l, p.1 ≠ k) (h : ChainsExt tid ts l l') :
      ChainsExt tid ts l ((k, chain) :: l')

theorem chainsExt_refl {κ α : Type} (tid : Nat) (ts : α → Nat) (l : List (κ × List α)) :
    ChainsExt tid ts l l := by
  induction l with
  | nil => exact .nil
  | cons p rest ih =>
    have h := ChainsExt.keep p.1 p.2 p.2 ⟨[], by simp⟩ ih
    simpa using h

theorem ChainsExt.keys_sub {κ α : Type} {tid : Nat} {ts : α → Nat}
    {l l' : List (κ × List α)} (h : ChainsExt tid ts l l') (k : κ)
    (hk : ∀ p ∈ l', p.1 ≠ k) : ∀ p ∈ l, p.1 ≠ k := by
  induction h with
  | nil => exact hk
  | keep k0 old new hext h ih =>
    intro p hp
    rcases List.mem_cons.mp hp with h1 | h1
    · have h2 := hk _ (List.mem_cons_self _ _)
      rw [h1]
      exact h2
    · exact ih (fun q hq => hk q (List.mem_cons_of_mem _ hq)) p h1
  | fresh k0 chain hch hk0 h ih =>
    exact ih (fun q hq => hk q (List.mem_cons_of_mem _ hq))

theorem chainsExt_trans {κ α : Type} {tid : Nat} {ts : α → Nat}
    {a b c : List (κ × List α)} (h1 : ChainsExt tid ts a b) (h2 : ChainsExt tid ts b c) :
    ChainsExt tid ts a c := by
  induction h2 generalizing a with
  | nil =>
    cases h1
    exact .nil
  | keep k old new hext h ih =>
    obtain ⟨pre, rfl, hpre⟩ := hext
    cases h1 with
    | keep _ old1 _ hext1 hh =>
      obtain ⟨pre1, rfl, hpre1⟩ := hext1
      refine ChainsExt.keep k old1 (pre ++ (pre1 ++ old1)) ⟨pre ++ pre1, by simp, ?_⟩ (ih hh)
      intro x hx
      rcases List.mem_append.mp hx with h' | h'
      · exact hpre x h'
      · exact hpre1 x h'
    | fresh _ _ hch hk hh =>
      refine ChainsExt.fresh k (pre ++ old) ?_ hk (ih hh)
      intro x hx
      rcases List.mem_append.mp hx with h' | h'
      · exact hpre x h'
      · exact hch x h'
  | fresh k chain hch hk h ih =>
    exact ChainsExt.fresh k chain hch (ChainsExt.keys_sub h1 k hk) (ih h1)

theorem ChainsExt.setAssoc_cons {κ α : Type} [DecidableEq κ] {tid : Nat} {ts : α → Nat}
    (l : List (κ × List α)) (k : κ) (old : List α) (pre : List α)
    (hl : lookupAssoc l k = some old) (hpre : ∀ x ∈ pre, ts x = tid) :
    ChainsExt tid ts l (setAssoc l k (pre ++ old)) := by
  induction l with
  | nil => simp [lookupAssoc] at hl
  | cons p rest ih =>
    obtain ⟨a, ch⟩ := p
    by_cases hp : a = k
    · subst hp
      simp only [lookupAssoc, if_pos rfl] at hl
      obtain rfl : ch = old := by injection hl
      simp only [setAssoc, if_pos rfl]
      exact ChainsExt.keep a ch (pre ++ ch) ⟨pre, rfl, hpre⟩ (chainsExt_refl tid ts rest)
    · simp only [lookupAssoc, if_neg hp] at hl
      simp only [setAssoc, if_neg hp]
      exact ChainsExt.keep a ch ch ⟨[], by simp⟩ (ih hl)

theorem ChainsExt.setAssoc_fresh {κ α : Type} [DecidableEq κ] {tid : Nat} {ts : α → Nat}
    (l : List (κ × List α)) (k : κ) (chain : List α)
    (hl : lookupAssoc l k = none) (hch : ∀ x ∈ chain, ts x = tid) :
    ChainsExt tid ts l (setAssoc l k chain) := by
  induction l with
  | nil =>
    simp only [setAssoc]
    exact ChainsExt.fresh k chain hch (by simp) .nil
  | cons p rest ih =>
    obtain ⟨a, ch⟩ := p
    by_cases hp : a = k
    · subst hp
      simp [lookupAssoc] at hl
    · simp only [lookupAssoc, if_neg hp] at hl
      simp only [setAssoc, if_neg hp]
      exact ChainsExt.keep a ch ch ⟨[], by simp⟩ (ih hl)

/-- An invisible writer's chain extensions do not change what any key
resolves to for the reading transaction. -/
theorem resolveAt_ext {κ α : Type} [DecidableEq κ] {tid : Nat} {ts : α → Nat}
    {l l' : List (κ × List α)} (tm : TransactionManager) (txn : Transaction)
    (h : ChainsExt tid ts l l') (hinv : UseTimestamp tm txn tid = false) (k : κ) :
    resolveAt tm txn ts l' k = resolveAt tm txn ts l k := by
  induction h with
  | nil => rfl
  | keep k0 old new hext h ih =>
    obtain ⟨pre, rfl, hpre⟩ := hext
    by_cases hk : k0 = k
    · subst hk
      simp only [resolveAt, lookupAssoc, if_pos rfl, Option.bind_some]
      exact firstVisible_append_invisible tm txn ts pre old
        (fun x hx => by rw [hpre x hx]; exact hinv)
    · simpa only [resolveAt, lookupAssoc, if_neg hk] using ih
  | fresh k0 chain hch hk0 h ih =>
    by_cases hk : k0 = k
    · subst hk
      have h1 : firstVisible tm txn ts chain = none :=
        firstVisible_all_invisible tm txn ts chain (fun x hx => by rw [hch x hx]; exact hinv)
      simp [resolveAt, lookupAssoc, h1, lookupAssoc_eq_none _ _ hk0]
    · simpa only [resolveAt, lookupAssoc, if_neg hk] using ih

/-- An invisible writer's chain extensions do not change the scan of the slot
table for the reading transaction. -/
theorem scanList_ext {tid : Nat} {e e' : List (Nat × List CatalogEntry)}
    (tm : TransactionManager) (txn : Transaction)
    (h : ChainsExt tid CatalogEntry.timestamp e e')
    (hinv : UseTimestamp tm txn tid = false) :
    scanList tm txn e' = scanList tm txn e := by
  induction h with
  | nil => rfl
  | keep k0 old new hext h ih =>
    obtain ⟨pre, rfl, hpre⟩ := hext
    have hvis : GetEntryForTransaction tm txn (pre ++ old) = GetEntryForTransaction tm txn old :=
      firstVisible_append_invisible tm txn _ pre old
        (fun x hx => by rw [hpre x hx]; exact hinv)
    simp only [scanList, hvis, ih]
  | fresh k0 chain hch hk0 h ih =>
    have hvis : GetEntryForTransaction tm txn chain = none :=
      firstVisible_all_invisible tm txn _ chain
        (fun x hx => by rw [hch x hx]; exact hinv)
    simp only [scanList, hvis, ih]

/-! ### The footprint of single catalog writes -/

/-- The whole-catalog footprint of writes by transaction id `tid`: both
indices only grow by `tid`-stamped nodes and the default generator is
untouched. -/
def WriteExt (tid : Nat) (cs cs' : CatalogSet) : Prop :=
  ChainsExt tid MappingValue.timestamp cs.mapping cs'.mapping ∧
  ChainsExt tid CatalogEntry.timestamp cs.entries cs'.entries ∧
  cs'.defaults = cs.defaults

theorem writeExt_refl (tid : Nat) (cs : CatalogSet) : WriteExt tid cs cs :=
  ⟨chainsExt_refl tid _ _, chainsExt_refl tid _ _, rfl⟩

theorem writeExt_trans {tid : Nat} {a b c : CatalogSet}
    (h1 : WriteExt tid a b) (h2 : WriteExt tid b c) : WriteExt tid a c :=
  ⟨chainsExt_trans h1.1 h2.1, chainsExt_trans h1.2.1 h2.2.1, h2.2.2.trans h1.2.2⟩

theorem resolveAt_some_lookup {κ α : Type} [DecidableEq κ] {tm : TransactionManager}
    {txn : Transaction} {ts : α → Nat} {l : List (κ × List α)} {k : κ} {v : α}
    (h : resolveAt tm txn ts l k = some v) :
    ∃ ch, lookupAssoc l k = some ch ∧ firstVisible tm txn ts ch = some v := by
  unfold resolveAt at h
  rcases hl : lookupAssoc l k with _ | ch
  · rw [hl] at h
    simp at h
  · rw [hl] at h
    exact ⟨ch, rfl, h⟩

theorem lookupAssoc_slotInv_none {cs : CatalogSet} (h : SlotInv cs) :
    lookupAssoc cs.entries cs.current_entry = none :=
  lookupAssoc_eq_none _ _ (fun p hp => Nat.ne_of_lt (h p hp))

theorem CreateEntry_writeExt (tm : TransactionManager) (txn : Transaction) (cs : CatalogSet)
    (n : String) (p : Nat) (d : List Nat) (hinv : SlotInv cs) :
    WriteExt txn.id cs (CreateEntry tm txn cs n p d).2 := by
  unfold CreateEntry
  by_cases hc : createAllowed tm txn ((lookupAssoc cs.mapping n).getD []) = true
  · rw [if_pos hc]
    refine ⟨?_, ?_, rfl⟩
    · rcases hl : lookupAssoc cs.mapping n with _ | old
      · simp only [hl, Option.getD_none]
        exact ChainsExt.setAssoc_fresh cs.mapping n _ hl (by intro x hx; simp at hx; simp [hx])
      · simp only [hl, Option.getD_some]
        exact ChainsExt.setAssoc_cons cs.mapping n old
          [{ index := cs.current_entry, timestamp := txn.id, deleted := false }] hl
          (by intro x hx; simp at hx; simp [hx])
    · exact ChainsExt.setAssoc_fresh cs.entries cs.current_entry _
        (lookupAssoc_slotInv_none hinv) (by intro x hx; simp at hx; simp [hx])
  · rw [if_neg hc]
    exact writeExt_refl txn.id cs

theorem AlterEntry_writeExt (tm : TransactionManager) (txn : Transaction) (cs : CatalogSet)
    (n : String) (f : Nat → Nat) :
    WriteExt txn.id cs (AlterEntry tm txn cs n f).2 := by
  unfold AlterEntry
  split
  · exact writeExt_refl txn.id cs
  next b hb =>
    split
    · exact writeExt_refl txn.id cs
    · split
      next head rest hl =>
        split
        · exact writeExt_refl txn.id cs
        next v hv =>
          split
          · exact writeExt_refl txn.id cs
          · split
            · exact writeExt_refl txn.id cs
            · refine ⟨chainsExt_refl txn.id _ _, ?_, rfl⟩
              exact ChainsExt.setAssoc_cons cs.entries b.index (head :: rest)
                [{ name := n, payload := f v.payload, timestamp := txn.id, deleted := false }] hl
                (by intro x hx; rw [List.mem_singleton] at hx; subst hx; rfl)
      next => exact writeExt_refl txn.id cs

theorem dropSlot_ext (tid : Nat) (es : List (Nat × List CatalogEntry)) (s : Nat) :
    ChainsExt tid CatalogEntry.timestamp es (dropSlot tid es s) := by
  unfold dropSlot
  split
  next chain h =>
    exact ChainsExt.setAssoc_cons es s chain
      [{ name := headName chain, payload := 0, timestamp := tid, deleted := true }] h
      (by intro x hx; rw [List.mem_singleton] at hx; subst hx; rfl)
  next => exact chainsExt_refl tid _ es

theorem foldl_dropSlot_ext (tid : Nat) (ds : List Nat) (es : List (Nat × List CatalogEntry)) :
    ChainsExt tid CatalogEntry.timestamp es (ds.foldl (dropSlot tid) es) := by
  induction ds generalizing es with
  | nil => exact chainsExt_refl tid _ es
  | cons d ds ih =>
    exact chainsExt_trans (dropSlot_ext tid es d) (ih (dropSlot tid es d))

theorem DropEntry_writeExt (tm : TransactionManager) (txn : Transaction) (cs : CatalogSet)
    (n : String) (cascade : Bool) :
    WriteExt txn.id cs (DropEntry tm txn cs n cascade).2 := by
  unfold DropEntry
  split
  · exact writeExt_refl txn.id cs
  next b hb =>
    split
    · exact writeExt_refl txn.id cs
    · split
      next head rest hl =>
        split
        · exact writeExt_refl txn.id cs
        · split
          · exact writeExt_refl txn.id cs
          · obtain ⟨old, hlm, _⟩ := resolveAt_some_lookup hb
            refine ⟨?_, ?_, rfl⟩
            · rw [hlm]
              simp only [Option.getD_some]
              exact ChainsExt.setAssoc_cons cs.mapping n old
                [{ index := b.index, timestamp := txn.id, deleted := true }] hlm
                (by intro x hx; rw [List.mem_singleton] at hx; subst hx; rfl)
            · refine chainsExt_trans ?_ (dropSlot_ext txn.id _ b.index)
              cases cascade with
              | false => exact chainsExt_refl txn.id _ cs.entries
              | true => exact foldl_dropSlot_ext txn.id _ cs.entries
      next => exact writeExt_refl txn.id cs

/-! ### Preservation of the slot-table invariant -/

theorem dropSlot_bound {c tid : Nat} {es : List (Nat × List CatalogEntry)} {s : Nat}
    (h : ∀ p ∈ es, p.1 < c) : ∀ p ∈ dropSlot tid es s, p.1 < c := by
  unfold dropSlot
  split
  next chain hl =>
    intro p hp
    rcases mem_setAssoc _ _ _ _ hp with h1 | h1
    · rw [h1]
      have hs : (s, chain) ∈ es := lookupAssoc_mem es s chain hl
      simpa using h _ hs
    · exact h p h1
  next => exact h

theorem foldl_dropSlot_bound {c tid : Nat} {ds : List Nat} {es : List (Nat × List CatalogEntry)}
    (h : ∀ p ∈ es, p.1 < c) : ∀ p ∈ ds.foldl (dropSlot tid) es, p.1 < c := by
  induction ds generalizing es with
  | nil => exact h
  | cons d ds ih => exact ih (dropSlot_bound h)

theorem SlotInv_applyOp (tm : TransactionManager) (txn : Transaction) (cs : CatalogSet)
    (op : CatalogOp) (hinv : SlotInv cs) : SlotInv (applyOp tm txn cs op) := by
  cases op with
  | createOp n p d =>
    show SlotInv (CreateEntry tm txn cs n p d).2
    simp only [CreateEntry]
    split
    · intro q hq
      rcases mem_setAssoc _ _ _ _ hq with h1 | h1
      · rw [h1]
        exact Nat.lt_succ_self _
      · exact Nat.lt_succ_of_lt (hinv q h1)
    · exact hinv
  | alterOp n f =>
    show SlotInv (AlterEntry tm txn cs n f).2
    unfold AlterEntry
    split
    · exact hinv
    next b hb =>
      split
      · exact hinv
      · split
        next head rest hl =>
          split
          · exact hinv
          next v hv =>
            split
            · exact hinv
            · split
              · exact hinv
              · intro q hq
                rcases mem_setAssoc _ _ _ _ hq with h1 | h1
                · rw [h1]
                  have hs : (b.index, head :: rest) ∈ cs.entries :=
                    lookupAssoc_mem cs.entries b.index (head :: rest) hl
                  simpa using hinv _ hs
                · exact hinv q h1
        next => exact hinv
  | dropOp n c =>
    show SlotInv (DropEntry tm txn cs n c).2
    unfold DropEntry
    split
    · exact hinv
    next b hb =>
      split
      · exact hinv
      · split
        next head rest hl =>
          split
          · exact hinv
          · split
            · exact hinv
            · intro q hq
              refine dropSlot_bound ?_ q hq
              cases c with
              | false => exact hinv
              | true => exact foldl_dropSlot_bound hinv
        next => exact hinv
  | undoOp s =>
    show SlotInv (Undo txn.id cs s)
    unfold Undo
    split
    next v rest hl =>
      split
      · intro q hq
        rcases mem_setAssoc _ _ _ _ hq with h1 | h1
        · rw [h1]
          have hs : (s, v :: rest) ∈ cs.entries :=
            lookupAssoc_mem cs.entries s (v :: rest) hl
          simpa using hinv _ hs
        · exact hinv q h1
      · exact hinv
    next => exact hinv

theorem applyOp_writeExt (tm : TransactionManager) (txn : Transaction) (cs : CatalogSet)
    (op : CatalogOp) (hw : op.isWrite = true) (hinv : SlotInv cs) :
    WriteExt txn.id cs (applyOp tm txn cs op) := by
  cases op with
  | createOp n p d => exact CreateEntry_writeExt tm txn cs n p d hinv
  | alterOp n f => exact AlterEntry_writeExt tm txn cs n f
  | dropOp n c => exact DropEntry_writeExt tm txn cs n c
  | undoOp s => simp [CatalogOp.isWrite] at hw

theorem applyOps_writeExt (tm : TransactionManager) (txn : Transaction) (ops : List CatalogOp)
    (cs : CatalogSet) (hw : ∀ op ∈ ops, op.isWrite = true) (hinv : SlotInv cs) :
    WriteExt txn.id cs (applyOps tm txn ops cs) := by
  induction ops generalizing cs with
  | nil => exact writeExt_refl txn.id cs
  | cons op ops ih =>
    have h1 := applyOp_writeExt tm txn cs op (hw op (List.mem_cons_self _ _)) hinv
    have h2 := ih (applyOp tm txn cs op) (fun o ho => hw o (List.mem_cons_of_mem _ ho))
      (SlotInv_applyOp tm txn cs op hinv)
    exact writeExt_trans h1 (by simpa [applyOps] using h2)

/-! ### Stability of reads under an invisible writer -/

theorem UseTimestamp_own (tm : TransactionManager) (txn : Transaction) :
    UseTimestamp tm txn txn.id = true := by
  simp [UseTimestamp]

theorem UseTimestamp_committed_before (tm : TransactionManager) (txn : Transaction)
    {t c : Nat} (hc : tm.commitOf t = some c) (hlt : c < txn.startTime) :
    UseTimestamp tm txn t = true := by
  simp [UseTimestamp, hc, hlt]

theorem UseTimestamp_uncommitted_other (tm : TransactionManager) (txn : Transaction)
    {t : Nat} (hne : t ≠ txn.id) (hc : tm.commitOf t = none) :
    UseTimestamp tm txn t = false := by
  simp [UseTimestamp, hc, hne]

theorem UseTimestamp_committed_after (tm : TransactionManager) (txn : Transaction)
    {t c : Nat} (hne : t ≠ txn.id) (hc : tm.commitOf t = some c)
    (hge : txn.startTime ≤ c) : UseTimestamp tm txn t = false := by
  simp [UseTimestamp, hc, hne, Nat.not_lt.mpr hge]

theorem GetEntry_ext {tid : Nat} {cs cs' : CatalogSet} (tm : TransactionManager)
    (txn : Transaction) (h : WriteExt tid cs cs')
    (hinvis : UseTimestamp tm txn tid = false) (n : String) :
    GetEntry tm txn cs' n = GetEntry tm txn cs n := by
  obtain ⟨hm, he, hd⟩ := h
  have hgen : genDefault cs' n = genDefault cs n := by
    unfold genDefault
    rw [hd]
  unfold GetEntry GetMapping
  rw [resolveAt_ext tm txn hm hinvis n]
  rcases resolveAt tm txn MappingValue.timestamp cs.mapping n with _ | b
  · exact hgen
  · dsimp only
    rw [resolveAt_ext tm txn he hinvis b.index]
    rw [hgen]

theorem Scan_ext {tid : Nat} {cs cs' : CatalogSet} (tm : TransactionManager)
    (txn : Transaction) (h : WriteExt tid cs cs')
    (hinvis : UseTimestamp tm txn tid = false) :
    Scan tm txn cs' = Scan tm txn cs :=
  scanList_ext tm txn h.2.1 hinvis

/-! ### Scan as a filterMap -/

theorem scanList_eq_filterMap (tm : TransactionManager) (txn : Transaction)
    (e : List (Nat × List CatalogEntry)) :
    scanList tm txn e = e.filterMap (visibleLive tm txn) := by
  induction e with
  | nil => rfl
  | cons p rest ih =>
    rcases h : GetEntryForTransaction tm txn p.2 with _ | v
    · simp [scanList, visibleLive, h, ih, List.filterMap_cons]
    · by_cases hv : v.deleted = true
      · simp [scanList, visibleLive, h, hv, ih, List.filterMap_cons]
      · simp [scanList, visibleLive, h, hv, ih, List.filterMap_cons]

/-! ### Best-match lemmas for the fuzzy lookup -/

theorem bestMatch_eq_none {q : String} {l : List String}
    (h : bestMatch q l = none) : l = [] := by
  cases l with
  | nil => rfl
  | cons n rest =>
    exfalso
    simp only [bestMatch] at h
    rcases hb : bestMatch q rest with _ | ⟨m, e⟩ <;> rw [hb] at h <;> dsimp only at h
    · exact Option.some_ne_none _ h
    · by_cases hlt : LevenshteinDistance q n < e
      · rw [if_pos hlt] at h
        exact Option.some_ne_none _ h
      · rw [if_neg hlt] at h
        exact Option.some_ne_none _ h

theorem bestMatch_spec {q : String} {l : List String} {n : String} {d : Nat}
    (h : bestMatch q l = some (n, d)) :
    n ∈ l ∧ d = LevenshteinDistance q n ∧ ∀ m ∈ l, d ≤ LevenshteinDistance q m := by
  induction l generalizing n d with
  | nil => simp [bestMatch] at h
  | cons x rest ih =>
    simp only [bestMatch] at h
    rcases hb : bestMatch q rest with _ | ⟨m, e⟩ <;> rw [hb] at h <;> dsimp only at h
    · obtain rfl : rest = [] := bestMatch_eq_none hb
      obtain ⟨rfl, rfl⟩ := Prod.mk.inj (Option.some.inj h)
      refine ⟨List.mem_singleton_self x, rfl, ?_⟩
      intro m hm
      rw [List.mem_singleton] at hm
      rw [hm]
    · obtain ⟨hm, he, hall⟩ := ih hb
      by_cases hlt : LevenshteinDistance q x < e
      · rw [if_pos hlt] at h
        obtain ⟨rfl, rfl⟩ := Prod.mk.inj (Option.some.inj h)
        refine ⟨List.mem_cons_self _ _, rfl, ?_⟩
        intro m' hm'
        rcases List.mem_cons.mp hm' with h1 | h1
        · rw [h1]
        · exact Nat.le_of_lt (Nat.lt_of_lt_of_le hlt (he ▸ hall m' h1))
      · rw [if_neg hlt] at h
        obtain ⟨rfl, rfl⟩ := Prod.mk.inj (Option.some.inj h)
        refine ⟨List.mem_cons_of_mem _ hm, he, ?_⟩
        intro m' hm'
        rcases List.mem_cons.mp hm' with h1 | h1
        · rw [h1]
          exact Nat.le_of_not_lt hlt
        · exact hall m' h1

/-! ### Slot-counter monotonicity and chain evolution -/

theorem AlterEntry_current_entry (tm : TransactionManager) (txn : Transaction) (cs : CatalogSet)
    (n : String) (f : Nat → Nat) :
    (AlterEntry tm txn cs n f).2.current_entry = cs.current_entry := by
  unfold AlterEntry
  repeat' split
  all_goals rfl

theorem DropEntry_current_entry (tm : TransactionManager) (txn : Transaction) (cs : CatalogSet)
    (n : String) (c : Bool) :
    (DropEntry tm txn cs n c).2.current_entry = cs.current_entry := by
  unfold DropEntry
  repeat' split
  all_goals rfl

theorem Undo_current_entry (tid : Nat) (cs : CatalogSet) (s : Nat) :
    (Undo tid cs s).current_entry = cs.current_entry := by
  unfold Undo
  repeat' split
  all_goals rfl

theorem current_entry_le_applyOp (tm : TransactionManager) (txn : Transaction) (cs : CatalogSet)
    (op : CatalogOp) : cs.current_entry ≤ (applyOp tm txn cs op).current_entry := by
  cases op with
  | createOp n p d =>
    show cs.current_entry ≤ (CreateEntry tm txn cs n p d).2.current_entry
    simp only [CreateEntry]
    split
    · exact Nat.le_succ _
    · exact Nat.le.refl
  | alterOp n f => exact Nat.le_of_eq (AlterEntry_current_entry tm txn cs n f).symm
  | dropOp n c => exact Nat.le_of_eq (DropEntry_current_entry tm txn cs n c).symm
  | undoOp s => exact Nat.le_of_eq (Undo_current_entry txn.id cs s).symm

theorem current_entry_le_applyOps (tm : TransactionManager) (txn : Transaction)
    (ops : List CatalogOp) (cs : CatalogSet) :
    cs.current_entry ≤ (applyOps tm txn ops cs).current_entry := by
  induction ops generalizing cs with
  | nil => exact Nat.le.refl
  | cons op ops ih =>
    exact Nat.le_trans (current_entry_le_applyOp tm txn cs op)
      (by simpa [applyOps] using ih (applyOp tm txn cs op))

theorem dropSlot_suffix (tid : Nat) {es : List (Nat × List CatalogEntry)} (s' : Nat) {s : Nat}
    {ch : List CatalogEntry} (h : lookupAssoc es s = some ch) :
    ∃ ch', lookupAssoc (dropSlot tid es s') s = some ch' ∧ List.IsSuffix ch ch' := by
  unfold dropSlot
  split
  next chain hl =>
    by_cases hs : s = s'
    · subst hs
      rw [h] at hl
      obtain rfl : ch = chain := by injection hl
      exact ⟨_, lookupAssoc_setAssoc_self es s _, ⟨[_], rfl⟩⟩
    · rw [lookupAssoc_setAssoc_ne es s' s _ hs]
      exact ⟨ch, h, List.suffix_refl ch⟩
  next => exact ⟨ch, h, List.suffix_refl ch⟩

theorem foldl_dropSlot_suffix {tid : Nat} {ds : List Nat} {es : List (Nat × List CatalogEntry)}
    {s : Nat} {ch : List CatalogEntry} (h : lookupAssoc es s = some ch) :
    ∃ ch', lookupAssoc (ds.foldl (dropSlot tid) es) s = some ch' ∧ List.IsSuffix ch ch' := by
  induction ds generalizing es ch with
  | nil => exact ⟨ch, h, List.suffix_refl ch⟩
  | cons d ds ih =>
    obtain ⟨ch1, h1, hs1⟩ := dropSlot_suffix tid d h
    obtain ⟨ch2, h2, hs2⟩ := ih h1
    exact ⟨ch2, h2, hs1.trans hs2⟩

theorem chain_evolution_applyOp (tm : TransactionManager) (txn : Transaction) (cs : CatalogSet)
    (op : CatalogOp) (s : Nat) (ch : List CatalogEntry) (hinv : SlotInv cs)
    (h : lookupAssoc cs.entries s = some ch) :
    ∃ ch', lookupAssoc (applyOp tm txn cs op).entries s = some ch' ∧
      (List.IsSuffix ch ch' ∨ List.IsSuffix ch' ch) := by
  cases op with
  | createOp n p d =>
    show ∃ ch', lookupAssoc (CreateEntry tm txn cs n p d).2.entries s = some ch' ∧ _
    simp only [CreateEntry]
    split
    · have hne : s ≠ cs.current_entry :=
        Nat.ne_of_lt (hinv _ (lookupAssoc_mem cs.entries s ch h))
      rw [lookupAssoc_setAssoc_ne cs.entries cs.current_entry s _ hne]
      exact ⟨ch, h, Or.inl (List.suffix_refl ch)⟩
    · exact ⟨ch, h, Or.inl (List.suffix_refl ch)⟩
  | alterOp n f =>
    show ∃ ch', lookupAssoc (AlterEntry tm txn cs n f).2.entries s = some ch' ∧ _
    unfold AlterEntry
    split
    · exact ⟨ch, h, Or.inl (List.suffix_refl ch)⟩
    next b hb =>
      split
      · exact ⟨ch, h, Or.inl (List.suffix_refl ch)⟩
      · split
        next head rest hl =>
          split
          · exact ⟨ch, h, Or.inl (List.suffix_refl ch)⟩
          next v hv =>
            split
            · exact ⟨ch, h, Or.inl (List.suffix_refl ch)⟩
            · split
              · exact ⟨ch, h, Or.inl (List.suffix_refl ch)⟩
              · by_cases hs : s = b.index
                · subst hs
                  rw [h] at hl
                  obtain rfl : ch = head :: rest := by injection hl
                  refine ⟨_, lookupAssoc_setAssoc_self cs.entries b.index _, Or.inl ⟨[_], rfl⟩⟩
                · rw [lookupAssoc_setAssoc_ne cs.entries b.index s _ hs]
                  exact ⟨ch, h, Or.inl (List.suffix_refl ch)⟩
        next => exact ⟨ch, h, Or.inl (List.suffix_refl ch)⟩
  | dropOp n c =>
    show ∃ ch', lookupAssoc (DropEntry tm txn cs n c).2.entries s = some ch' ∧ _
    unfold DropEntry
    split
    · exact ⟨ch, h, Or.inl (List.suffix_refl ch)⟩
    next b hb =>
      split
      · exact ⟨ch, h, Or.inl (List.suffix_refl ch)⟩
      · split
        next head rest hl =>
          split
          · exact ⟨ch, h, Or.inl (List.suffix_refl ch)⟩
          · split
            · exact ⟨ch, h, Or.inl (List.suffix_refl ch)⟩
            · have hstep : ∃ ch1,
                  lookupAssoc (if c = true then
                    (liveDependents tm txn cs b.index).foldl (dropSlot txn.id) cs.entries
                  else cs.entries) s = some ch1 ∧ List.IsSuffix ch ch1 := by
                cases c with
                | false => exact ⟨ch, h, List.suffix_refl ch⟩
                | true => exact foldl_dropSlot_suffix h
              obtain ⟨ch1, h1, hs1⟩ := hstep
              obtain ⟨ch2, h2, hs2⟩ := dropSlot_suffix txn.id b.index h1
              exact ⟨ch2, h2, Or.inl (hs1.trans hs2)⟩
        next => exact ⟨ch, h, Or.inl (List.suffix_refl ch)⟩
  | undoOp slot =>
    show ∃ ch', lookupAssoc (Undo txn.id cs slot).entries s = some ch' ∧ _
    unfold Undo
    split
    next v rest hl =>
      split
      · by_cases hs : s = slot
        · subst hs
          rw [h] at hl
          obtain rfl : ch = v :: rest := by injection hl
          exact ⟨rest, lookupAssoc_setAssoc_self cs.entries s rest, Or.inr ⟨[v], rfl⟩⟩
        · rw [lookupAssoc_setAssoc_ne cs.entries slot s _ hs]
          exact ⟨ch, h, Or.inl (List.suffix_refl ch)⟩
      · exact ⟨ch, h, Or.inl (List.suffix_refl ch)⟩
    next => exact ⟨ch, h, Or.inl (List.suffix_refl ch)⟩

/-! ### CreateEntry characterization -/

theorem CreateEntry_success {tm : TransactionManager} {txn : Transaction} {cs : CatalogSet}
    {n : String} {p : Nat} {d : List Nat} {cs' : CatalogSet}
    (h : CreateEntry tm txn cs n p d = (true, cs')) :
    cs'.mapping = setAssoc cs.mapping n
      ({ index := cs.current_entry, timestamp := txn.id, deleted := false } ::
        (lookupAssoc cs.mapping n).getD []) ∧
    cs'.entries = setAssoc cs.entries cs.current_entry
      [{ name := n, payload := p, timestamp := txn.id, deleted := false }] ∧
    cs'.current_entry = cs.current_entry + 1 ∧
    cs'.defaults = cs.defaults := by
  simp only [CreateEntry] at h
  split at h
  · obtain rfl : _ = cs' := (Prod.mk.inj h).2
    exact ⟨rfl, rfl, rfl, rfl⟩
  · exact absurd (Prod.mk.inj h).1 (by simp)

theorem CreateEntry_fst (tm : TransactionManager) (txn : Transaction) (cs : CatalogSet)
    (n : String) (p : Nat) (d : List Nat) :
    (CreateEntry tm txn cs n p d).1 =
      createAllowed tm txn ((lookupAssoc cs.mapping n).getD []) := by
  simp only [CreateEntry]
  split
  next hc => exact hc.symm
  next hc =>
    simp only [Bool.not_eq_true] at hc
    exact hc.symm

theorem createAllowed_false_iff (tm : TransactionManager) (txn : Transaction)
    (chain : List MappingValue) :
    createAllowed tm txn chain = false ↔
      (∃ newest rest, chain = newest :: rest ∧
        ((UseTimestamp tm txn newest.timestamp = false ∧ newest.deleted = false) ∨
         (∃ vb, firstVisible tm txn MappingValue.timestamp chain = some vb ∧
            vb.deleted = false))) := by
  cases chain with
  | nil => simp [createAllowed]
  | cons newest rest =>
    simp only [createAllowed]
    constructor
    · intro h
      refine ⟨newest, rest, rfl, ?_⟩
      by_cases h1 : (!UseTimestamp tm txn newest.timestamp && !newest.deleted) = true
      · left
        simpa [Bool.and_eq_true, Bool.not_eq_true'] using h1
      · rw [if_neg h1] at h
        right
        rcases hv : firstVisible tm txn MappingValue.timestamp (newest :: rest) with _ | vb
        · rw [hv] at h
          simp at h
        · rw [hv] at h
          dsimp only at h
          exact ⟨vb, rfl, h⟩
    · rintro ⟨newest', rest', heq, hcond⟩
      obtain ⟨rfl, rfl⟩ : newest' = newest ∧ rest' = rest := by
        injection heq with h1 h2
        exact ⟨h1.symm, h2.symm⟩
      rcases hcond with ⟨hvt, hvd⟩ | ⟨vb, hfv, hvbd⟩
      · rw [if_pos (by simp [hvt, hvd])]
      · by_cases h1 : (!UseTimestamp tm txn newest'.timestamp && !newest'.deleted) = true
        · rw [if_pos h1]
        · rw [if_neg h1, hfv]
          exact hvbd

theorem GetEntry_after_create {tm tm2 : TransactionManager} {txn txn2 : Transaction}
    {cs : CatalogSet} {n : String} {p : Nat} {d : List Nat} {cs' : CatalogSet}
    (h : CreateEntry tm txn cs n p d = (true, cs'))
    (hvis : UseTimestamp tm2 txn2 txn.id = true) :
    GetEntry tm2 txn2 cs' n =
      some { name := n, payload := p, timestamp := txn.id, deleted := false } := by
  obtain ⟨hmap, hent, _, _⟩ := CreateEntry_success h
  have h1 : GetMapping tm2 txn2 cs' n =
      some { index := cs.current_entry, timestamp := txn.id, deleted := false } := by
    unfold GetMapping resolveAt
    rw [hmap, lookupAssoc_setAssoc_self]
    simp [firstVisible, hvis]
  unfold GetEntry
  rw [h1]
  dsimp only
  rw [if_neg (by simp)]
  unfold resolveAt
  rw [hent]
  rw [lookupAssoc_setAssoc_self]
  simp [firstVisible, hvis]

/-! ### Claim theorems -/

theorem UseTimestamp_iff (tm : TransactionManager) (txn : Transaction) (t : Nat) :
    UseTimestamp tm txn t = true ↔
      (t = txn.id ∨ ∃ c, tm.commitOf t = some c ∧ c < txn.startTime) := by
  unfold UseTimestamp
  rcases h : tm.commitOf t with _ | c <;> simp [h]

/-- C1: a chain node (Binding `MappingValue` or ObjectVersion `CatalogEntry`)
with creation timestamp `t` is visible to a transaction iff `t` is the
transaction's own id or `t` belongs to a transaction that committed before
the caller's start timestamp; a node of a different, still-uncommitted
transaction is never visible, and one committed at or after the start
timestamp is not visible. -/
theorem visibility_rule (tm : TransactionManager) (txn : Transaction)
    (b : MappingValue) (v : CatalogEntry) :
    (UseTimestamp tm txn b.timestamp = true ↔
      (b.timestamp = txn.id ∨
        ∃ c, tm.commitOf b.timestamp = some c ∧ c < txn.startTime)) ∧
    (UseTimestamp tm txn v.timestamp = true ↔
      (v.timestamp = txn.id ∨
        ∃ c, tm.commitOf v.timestamp = some c ∧ c < txn.startTime)) ∧
    (v.timestamp ≠ txn.id → tm.commitOf v.timestamp = none →
      UseTimestamp tm txn v.timestamp = false) ∧
    (∀ c, v.timestamp ≠ txn.id → tm.commitOf v.timestamp = some c →
      txn.startTime < c → UseTimestamp tm txn v.timestamp = false) := by
  refine ⟨UseTimestamp_iff tm txn b.timestamp, UseTimestamp_iff tm txn v.timestamp, ?_, ?_⟩
  · intro hne hc
    exact UseTimestamp_uncommitted_other tm txn hne hc
  · intro c hne hc hlt
    exact UseTimestamp_committed_after tm txn hne hc (Nat.le_of_lt hlt)

/-- C1 witness: under `tmW`, the uncommitted foreign timestamp 20 is
invisible to `txnW` and the committed timestamp 1 is visible. -/
theorem visibility_rule_witness :
    UseTimestamp tmW txnW 20 = false ∧ UseTimestamp tmW txnW 1 = true :=
  ⟨(visibility_rule tmW txnW ⟨0, 20, false⟩ ⟨"", 0, 20, false⟩).2.2.1
      (by decide) (by decide),
   ((visibility_rule tmW txnW ⟨0, 1, false⟩ ⟨"", 0, 1, false⟩).2.1).mpr
      (Or.inr ⟨1, by decide, by decide⟩)⟩

/-- C5: `Scan` is exactly the filterMap of the per-slot visible live
resolution over the slot table: it invokes the callback once per slot-table
entry whose visible version exists and is not deleted, and for no other
object. -/
theorem scan_sound_complete (tm : TransactionManager) (txn : Transaction) (cs : CatalogSet) :
    Scan tm txn cs = cs.entries.filterMap (visibleLive tm txn) ∧
    (∀ v, v ∈ Scan tm txn cs ↔ ∃ p ∈ cs.entries, visibleLive tm txn p = some v) := by
  refine ⟨scanList_eq_filterMap tm txn cs.entries, ?_⟩
  intro v
  rw [Scan, scanList_eq_filterMap, List.mem_filterMap]

/-- C5 witness: the scan of the two-object fixture catalog. -/
theorem scan_sound_complete_witness :
    Scan tmW txnW csNames = List.filterMap (visibleLive tmW txnW) csNames.entries :=
  (scan_sound_complete tmW txnW csNames).1

/-- C4: if `CreateEntry(n, P)` by a transaction succeeds, an immediately
following `GetEntry(n)` by the same transaction returns an entry whose
payload is `P`. -/
theorem create_get_roundtrip (tm : TransactionManager) (txn : Transaction) (cs : CatalogSet)
    (n : String) (p : Nat) (d : List Nat) (cs' : CatalogSet)
    (h : CreateEntry tm txn cs n p d = (true, cs')) :
    ∃ v, GetEntry tm txn cs' n = some v ∧ v.payload = p :=
  ⟨_, GetEntry_after_create h (UseTimestamp_own tm txn), rfl⟩

/-- C4 witness: creating "t1" with payload 7 in the empty catalog and reading
it back in the same transaction yields payload 7. -/
theorem create_get_roundtrip_witness :
    (GetEntry tmW txnW (CreateEntry tmW txnW csEmpty "t1" 7 []).2 "t1").map
      CatalogEntry.payload = some 7 := by
  obtain ⟨v, hv, hp⟩ := create_get_roundtrip tmW txnW csEmpty "t1" 7 []
    (CreateEntry tmW txnW csEmpty "t1" 7 []).2 rfl
  rw [hv]
  simp [hp]

/-- C10: `Scan` never consults the default-object generator — its result is
independent of the `defaults` field, and an object only materializable by the
generator (absent from the slot table and the name index) is never passed to
the callback even though `GetEntry` for its name succeeds. -/
theorem scan_ignores_defaults (tm : TransactionManager) (txn : Transaction) (cs : CatalogSet)
    (n : String) (pl : Nat) :
    (∀ dgen, Scan tm txn { cs with defaults := dgen } = Scan tm txn cs) ∧
    ((∀ p ∈ cs.entries, ∀ v ∈ p.2, v.name ≠ n) → lookupAssoc cs.mapping n = none →
      cs.defaults n = some pl →
      (∃ v, GetEntry tm txn cs n = some v ∧ v.payload = pl) ∧
      ∀ v ∈ Scan tm txn cs, v.name ≠ n) := by
  refine ⟨fun dgen => rfl, ?_⟩
  intro habs hmap hdef
  constructor
  · unfold GetEntry GetMapping resolveAt
    rw [hmap]
    simp [genDefault, hdef]
  · intro v hv
    rw [Scan, scanList_eq_filterMap] at hv
    obtain ⟨p, hp, hvl⟩ := List.mem_filterMap.mp hv
    have hmem : v ∈ p.2 := by
      unfold visibleLive at hvl
      rcases h2 : GetEntryForTransaction tm txn p.2 with _ | w
      · rw [h2] at hvl
        simp at hvl
      · rw [h2] at hvl
        dsimp only at hvl
        by_cases hw : w.deleted = true
        · rw [if_pos hw] at hvl
          simp at hvl
        · rw [if_neg hw] at hvl
          obtain rfl : w = v := by injection hvl
          exact firstVisible_mem _ _ _ _ _ h2
    exact habs p hp v hmem

/-- C10 witness: in the generator-backed empty catalog, `GetEntry "pi"`
succeeds with the generated payload while nothing with that name is scanned. -/
theorem scan_ignores_defaults_witness :
    (GetEntry tmW txnW csGen "pi").map CatalogEntry.payload = some 42 := by
  obtain ⟨⟨v, hv, hp⟩, _⟩ :=
    (scan_ignores_defaults tmW txnW csGen "pi" 42).2
      (by intro p hp; simp [csGen] at hp) (by decide) (by decide)
  rw [hv]
  simp [hp]

/-- C3: `CreateEntry` fails exactly when the newest binding for the name is
live for the writer — the newest binding is invisible and not deleted, or the
binding resolved by the §4.1 traversal exists and is not deleted; on success
it allocates the next slot index, installs the first version for it, and
prepends a binding stamped with the caller's transaction id. -/
theorem createEntry_spec (tm : TransactionManager) (txn : Transaction) (cs : CatalogSet)
    (n : String) (p : Nat) (d : List Nat) :
    ((CreateEntry tm txn cs n p d).1 = false ↔
      (∃ newest rest, (lookupAssoc cs.mapping n).getD [] = newest :: rest ∧
        ((UseTimestamp tm txn newest.timestamp = false ∧ newest.deleted = false) ∨
         (∃ vb, firstVisible tm txn MappingValue.timestamp
            ((lookupAssoc cs.mapping n).getD []) = some vb ∧ vb.deleted = false)))) ∧
    (∀ cs', CreateEntry tm txn cs n p d = (true, cs') →
      cs'.current_entry = cs.current_entry + 1 ∧
      lookupAssoc cs'.entries cs.current_entry =
        some [{ name := n, payload := p, timestamp := txn.id, deleted := false }] ∧
      lookupAssoc cs'.mapping n =
        some ({ index := cs.current_entry, timestamp := txn.id, deleted := false } ::
          (lookupAssoc cs.mapping n).getD [])) := by
  constructor
  · rw [CreateEntry_fst]
    have h := createAllowed_false_iff tm txn ((lookupAssoc cs.mapping n).getD [])
    constructor
    · intro h1
      exact h.mp h1
    · intro h1
      exact h.mpr h1
  · intro cs' h
    obtain ⟨hmap, hent, hcur, _⟩ := CreateEntry_success h
    refine ⟨hcur, ?_, ?_⟩
    · rw [hent]
      exact lookupAssoc_setAssoc_self cs.entries cs.current_entry _
    · rw [hmap]
      exact lookupAssoc_setAssoc_self cs.mapping n _

/-- C3 witness: creating "t" in the empty catalog succeeds, assigns slot 0,
and prepends the binding stamped with the caller's id; recreating the same
live name fails. -/
theorem createEntry_spec_witness :
    lookupAssoc (CreateEntry tmW txnW csEmpty "t" 5 []).2.mapping "t" =
      some [{ index := 0, timestamp := 10, deleted := false }] ∧
    (CreateEntry tmW txnW (CreateEntry tmW txnW csEmpty "t" 5 []).2 "t" 6 []).1 = false := by
  constructor
  · exact ((createEntry_spec tmW txnW csEmpty "t" 5 []).2
      (CreateEntry tmW txnW csEmpty "t" 5 []).2 rfl).2.2
  · exact (createEntry_spec tmW txnW (CreateEntry tmW txnW csEmpty "t" 5 []).2 "t" 6 []).1.mpr
      ⟨⟨0, 10, false⟩, [], by decide,
       Or.inr ⟨⟨0, 10, false⟩, by decide, rfl⟩⟩

theorem AlterEntry_ok {tm : TransactionManager} {txn : Transaction} {cs : CatalogSet}
    {n : String} {f : Nat → Nat} {cs' : CatalogSet}
    (h : AlterEntry tm txn cs n f = (.ok, cs')) :
    ∃ b head rest v, GetMapping tm txn cs n = some b ∧ b.deleted = false ∧
      lookupAssoc cs.entries b.index = some (head :: rest) ∧
      GetEntryForTransaction tm txn (head :: rest) = some v ∧
      cs' = { cs with entries := (setAssoc cs.entries b.index
        ({ name := n, payload := f v.payload, timestamp := txn.id, deleted := false } ::
          head :: rest)) } := by
  unfold AlterEntry at h
  split at h
  · simp at h
  next b hb =>
    split at h
    · simp at h
    next hbd =>
      split at h
      next head rest hl =>
        split at h
        · simp at h
        next v hv =>
          split at h
          · simp at h
          · split at h
            · simp at h
            · obtain rfl : _ = cs' := (Prod.mk.inj h).2
              exact ⟨b, head, rest, v, hb, by simpa using hbd, hl, hv, rfl⟩
      next => simp at h

/-- C6: rolling back a transaction's own `AlterEntry` through `Undo` splices
the altered version out and rewinds the slot table to the immediate
predecessor, restoring the whole catalog state — hence every subsequent
reader observes exactly the pre-alter payload. -/
theorem undo_alter_restores (tm : TransactionManager) (txn : Transaction) (cs : CatalogSet)
    (n : String) (f : Nat → Nat) (cs' : CatalogSet) (b : MappingValue)
    (hb : GetMapping tm txn cs n = some b)
    (h : AlterEntry tm txn cs n f = (.ok, cs')) :
    Undo txn.id cs' b.index = cs ∧
    ∀ (tm2 : TransactionManager) (txn2 : Transaction),
      GetEntry tm2 txn2 (Undo txn.id cs' b.index) n = GetEntry tm2 txn2 cs n := by
  obtain ⟨b2, head, rest, v, hb2, hbd2, hl, hv, rfl⟩ := AlterEntry_ok h
  obtain rfl : b = b2 := by
    rw [hb] at hb2
    injection hb2
  have hmain : Undo txn.id
      { cs with entries := (setAssoc cs.entries b.index
          ({ name := n, payload := f v.payload, timestamp := txn.id, deleted := false } ::
            head :: rest)) } b.index = cs := by
    unfold Undo
    dsimp only
    rw [lookupAssoc_setAssoc_self]
    dsimp only
    rw [if_pos rfl]
    rw [setAssoc_setAssoc]
    rw [setAssoc_lookup_self cs.entries b.index (head :: rest) hl]
  exact ⟨hmain, fun tm2 txn2 => by rw [hmain]⟩

/-- C6 witness: altering "orders" (payload 7 → 8) and undoing the altered
version restores the fixture catalog exactly. -/
theorem undo_alter_restores_witness :
    Undo 10 (AlterEntry tmW txnW csNames "orders" (fun p => p + 1)).2 0 = csNames :=
  (undo_alter_restores tmW txnW csNames "orders" (fun p => p + 1)
    (AlterEntry tmW txnW csNames "orders" (fun p => p + 1)).2 ⟨0, 1, false⟩
    (by decide) rfl).1

theorem liveDependents_mem (tm : TransactionManager) (txn : Transaction) (cs : CatalogSet)
    (s dep : Nat) :
    dep ∈ liveDependents tm txn cs s ↔
      ((dep, s) ∈ cs.depends_on ∧ isLiveSlot tm txn cs dep = true) := by
  unfold liveDependents
  constructor
  · intro hd
    rw [List.mem_filter] at hd
    obtain ⟨hd1, hlive⟩ := hd
    rw [List.mem_map] at hd1
    obtain ⟨pq, hpq, rfl⟩ := hd1
    rw [List.mem_filter] at hpq
    obtain ⟨hpmem, hps⟩ := hpq
    rw [beq_iff_eq] at hps
    refine ⟨?_, hlive⟩
    have hpair : (pq.1, s) = pq := by
      rw [← hps]
    rw [hpair]
    exact hpmem
  · rintro ⟨hmem, hlive⟩
    rw [List.mem_filter]
    refine ⟨?_, hlive⟩
    rw [List.mem_map]
    exact ⟨(dep, s), List.mem_filter.mpr ⟨hmem, by simp⟩, rfl⟩

/-- C7 (amended): `DropEntry` with `cascade = false`, on a name whose
resolved binding is visible and not deleted and whose version-chain head
carries no write-write conflict, fails with `dependencyError` iff at least
one live, visible dependent of the object exists; on success it prepends a
new binding marked deleted, preserving the prior bindings. -/
theorem dropEntry_dependency_spec (tm : TransactionManager) (txn : Transaction)
    (cs : CatalogSet) (n : String) (b : MappingValue) (head : CatalogEntry)
    (rest : List CatalogEntry)
    (hb : GetMapping tm txn cs n = some b) (hbd : b.deleted = false)
    (hl : lookupAssoc cs.entries b.index = some (head :: rest))
    (hnc : HasConflict tm txn head.timestamp = false) :
    ((DropEntry tm txn cs n false).1 = .dependencyError ↔
      ∃ dep, (dep, b.index) ∈ cs.depends_on ∧ isLiveSlot tm txn cs dep = true) ∧
    (∀ cs', DropEntry tm txn cs n false = (.ok, cs') →
      lookupAssoc cs'.mapping n =
        some ({ index := b.index, timestamp := txn.id, deleted := true } ::
          (lookupAssoc cs.mapping n).getD [])) := by
  unfold DropEntry
  rw [hb]
  dsimp only
  rw [if_neg (by rw [hbd]; exact Bool.false_ne_true)]
  rw [hl]
  dsimp only
  rw [if_neg (by rw [hnc]; exact Bool.false_ne_true)]
  simp only [Bool.not_false, Bool.true_and]
  by_cases hdep : (liveDependents tm txn cs b.index).isEmpty = true
  · rw [if_neg (by rw [hdep]; simp)]
    constructor
    · constructor
      · intro hcon
        exact absurd hcon (by simp)
      · rintro ⟨dep, hmem, hlive⟩
        have hin : dep ∈ liveDependents tm txn cs b.index :=
          (liveDependents_mem tm txn cs b.index dep).mpr ⟨hmem, hlive⟩
        rw [List.isEmpty_iff] at hdep
        rw [hdep] at hin
        simp at hin
    · intro cs' h
      obtain rfl : _ = cs' := (Prod.mk.inj h).2
      exact lookupAssoc_setAssoc_self cs.mapping n _
  · rw [if_pos (by simp only [Bool.not_eq_true] at hdep; rw [hdep]; simp)]
    constructor
    · constructor
      · intro _
        have hne : liveDependents tm txn cs b.index ≠ [] := by
          intro hcon
          rw [hcon] at hdep
          exact hdep rfl
        obtain ⟨dep, hdmem⟩ := List.exists_mem_of_ne_nil _ hne
        obtain ⟨hmem, hlive⟩ := (liveDependents_mem tm txn cs b.index dep).mp hdmem
        exact ⟨dep, hmem, hlive⟩
      · intro _
        rfl
    · intro cs' h
      simp at h

/-- C7 counterexample: in the fixture `csDrop` the caller's visible binding
for "a" is live and a live, visible dependent (slot 1) exists, yet
`DropEntry` without cascade fails with `transactionConflict` (the chain head
was written by the uncommitted transaction 20), not `dependencyError` — so
the claimed biconditional fails as stated. -/
theorem dropEntry_dependency_cex :
    GetMapping tmW txnW csDrop "a" = some ⟨0, 1, false⟩ ∧
    (∃ dep, (dep, 0) ∈ csDrop.depends_on ∧ isLiveSlot tmW txnW csDrop dep = true) ∧
    (DropEntry tmW txnW csDrop "a" false).1 = .transactionConflict ∧
    (DropEntry tmW txnW csDrop "a" false).1 ≠ .dependencyError := by
  refine ⟨by decide, ⟨1, by decide, by decide⟩, by decide, by decide⟩

/-- C7 witness: dropping "customers" (no dependents, no conflict) succeeds
and prepends the deleted binding in front of the prior chain. -/
theorem dropEntry_dependency_spec_witness :
    lookupAssoc (DropEntry tmW txnW csNames "customers" false).2.mapping "customers" =
      some ({ index := 1, timestamp := 10, deleted := true } ::
        (lookupAssoc csNames.mapping "customers").getD []) :=
  (dropEntry_dependency_spec tmW txnW csNames "customers" ⟨1, 1, false⟩
    ⟨"customers", 3, 1, false⟩ [] (by decide) rfl (by decide) (by decide)).2
    (DropEntry tmW txnW csNames "customers" false).2 rfl

/-- C8: `SimilarEntry` returns either the empty string or a live, visible
name within the threshold whose edit distance to the query is minimal among
all live, visible names; when it returns empty (and the empty string is not
itself a live name) every live name exceeds the threshold; and on the
fixture catalog containing only "orders" and "customers" the query "oders"
returns "orders". -/
theorem similarEntry_spec (tm : TransactionManager) (txn : Transaction) (cs : CatalogSet)
    (threshold : Nat) (q : String) :
    (∀ r, SimilarEntry tm txn cs threshold q = r → r ≠ "" →
      r ∈ liveNames tm txn cs ∧ LevenshteinDistance q r ≤ threshold ∧
      ∀ m ∈ liveNames tm txn cs, LevenshteinDistance q r ≤ LevenshteinDistance q m) ∧
    (("" ∉ liveNames tm txn cs) → SimilarEntry tm txn cs threshold q = "" →
      ∀ m ∈ liveNames tm txn cs, threshold < LevenshteinDistance q m) ∧
    SimilarEntry tmW txnW csNames 2 "oders" = "orders" := by
  refine ⟨?_, ?_, by decide⟩
  · intro r hr hne
    unfold SimilarEntry at hr
    rcases hbm : bestMatch q (liveNames tm txn cs) with _ | ⟨nm, dd⟩ <;> rw [hbm] at hr <;>
      dsimp only at hr
    · exact absurd hr.symm hne
    · by_cases hle : dd ≤ threshold
      · rw [if_pos hle] at hr
        obtain ⟨hm, hd, hall⟩ := bestMatch_spec hbm
        subst hr
        exact ⟨hm, hd ▸ hle, fun m hmem => hd ▸ hall m hmem⟩
      · rw [if_neg hle] at hr
        exact absurd hr.symm hne
  · intro h0 hr m hm
    unfold SimilarEntry at hr
    rcases hbm : bestMatch q (liveNames tm txn cs) with _ | ⟨nm, dd⟩ <;> rw [hbm] at hr <;>
      dsimp only at hr
    · rw [bestMatch_eq_none hbm] at hm
      simp at hm
    · obtain ⟨hmm, hd, hall⟩ := bestMatch_spec hbm
      by_cases hle : dd ≤ threshold
      · rw [if_pos hle] at hr
        rw [hr] at hmm
        exact absurd hmm h0
      · exact Nat.lt_of_lt_of_le (Nat.lt_of_not_le hle) (hall m hm)

/-- C8 witness: "orders" is a live name of the fixture catalog and its edit
distance to "oders" is within the threshold 2. -/
theorem similarEntry_spec_witness :
    "orders" ∈ liveNames tmW txnW csNames ∧ LevenshteinDistance "oders" "orders" ≤ 2 := by
  have h := (similarEntry_spec tmW txnW csNames 2 "oders").1 "orders"
    (similarEntry_spec tmW txnW csNames 2 "oders").2.2 (by decide)
  exact ⟨h.1, h.2.1⟩

/-- C9: the slot-index counter never decreases under any catalog operation or
operation sequence; the slot-table invariant (every assigned slot is below
the counter) is preserved; a successful `CreateEntry` assigns the counter
value as the new slot — strictly greater than every previously assigned
slot — and bumps the counter; and an assigned slot's chain only ever grows or
shrinks at the head (its object is never replaced by a different one). -/
theorem slot_monotonic :
    (∀ (tm : TransactionManager) (txn : Transaction) (cs : CatalogSet) (op : CatalogOp),
      cs.current_entry ≤ (applyOp tm txn cs op).current_entry) ∧
    (∀ (tm : TransactionManager) (txn : Transaction) (ops : List CatalogOp) (cs : CatalogSet),
      cs.current_entry ≤ (applyOps tm txn ops cs).current_entry) ∧
    (∀ (tm : TransactionManager) (txn : Transaction) (cs : CatalogSet) (op : CatalogOp),
      SlotInv cs → SlotInv (applyOp tm txn cs op)) ∧
    (∀ (tm : TransactionManager) (txn : Transaction) (cs : CatalogSet) (n : String)
        (p : Nat) (d : List Nat) (cs' : CatalogSet),
      SlotInv cs → CreateEntry tm txn cs n p d = (true, cs') →
      (∀ q ∈ cs.entries, q.1 < cs.current_entry) ∧
      lookupAssoc cs'.entries cs.current_entry =
        some [{ name := n, payload := p, timestamp := txn.id, deleted := false }] ∧
      cs'.current_entry = cs.current_entry + 1) ∧
    (∀ (tm : TransactionManager) (txn : Transaction) (cs : CatalogSet) (op : CatalogOp)
        (s : Nat) (ch : List CatalogEntry),
      SlotInv cs → lookupAssoc cs.entries s = some ch →
      ∃ ch', lookupAssoc (applyOp tm txn cs op).entries s = some ch' ∧
        (List.IsSuffix ch ch' ∨ List.IsSuffix ch' ch)) := by
  refine ⟨current_entry_le_applyOp, current_entry_le_applyOps, SlotInv_applyOp, ?_,
    chain_evolution_applyOp⟩
  intro tm txn cs n p d cs' hinv h
  obtain ⟨_, hent, hcur, _⟩ := CreateEntry_success h
  refine ⟨hinv, ?_, hcur⟩
  rw [hent]
  exact lookupAssoc_setAssoc_self cs.entries cs.current_entry _

/-- C9 witness: creating "t" in the empty catalog assigns slot 0 and bumps
the counter to 1. -/
theorem slot_monotonic_witness :
    lookupAssoc (CreateEntry tmW txnW csEmpty "t" 5 []).2.entries 0 =
      some [{ name := "t", payload := 5, timestamp := 10, deleted := false }] ∧
    (CreateEntry tmW txnW csEmpty "t" 5 []).2.current_entry = 1 := by
  have h := slot_monotonic.2.2.2.1 tmW txnW csEmpty "t" 5 []
    (CreateEntry tmW txnW csEmpty "t" 5 []).2
    (by intro q hq; simp [csEmpty] at hq) rfl
  exact ⟨h.2.1, h.2.2⟩

theorem mem_setAssoc_self {κ α : Type} [DecidableEq κ] (l : List (κ × α)) (k : κ) (v : α) :
    (k, v) ∈ setAssoc l k v := by
  induction l with
  | nil => exact List.mem_singleton_self _
  | cons p rest ih =>
    by_cases hp : p.1 = k
    · simp only [setAssoc, if_pos hp]
      exact List.mem_cons_self _ _
    · simp only [setAssoc, if_neg hp]
      exact List.mem_cons_of_mem _ ih

theorem DropEntry_ok {tm : TransactionManager} {txn : Transaction} {cs : CatalogSet}
    {n : String} {cascade : Bool} {cs' : CatalogSet}
    (h : DropEntry tm txn cs n cascade = (.ok, cs')) :
    ∃ b, GetMapping tm txn cs n = some b ∧
      cs'.mapping = setAssoc cs.mapping n
        ({ index := b.index, timestamp := txn.id, deleted := true } ::
          ((lookupAssoc cs.mapping n).getD [])) ∧
      cs'.defaults = cs.defaults := by
  unfold DropEntry at h
  split at h
  · simp at h
  next b hb =>
    split at h
    · simp at h
    · split at h
      next head rest hl =>
        split at h
        · simp at h
        · split at h
          · simp at h
          · obtain rfl : _ = cs' := (Prod.mk.inj h).2
            exact ⟨b, hb, rfl, rfl⟩
      next => simp at h

/-- C2: snapshot isolation across commits.  Negative direction: for any
sequence of catalog writes (create/alter/drop) by transaction A, a reader B
whose start timestamp is before A's commit timestamp observes, through
`GetEntry` on every name and through `Scan`, exactly the pre-write catalog.
Positive direction, per write kind and hence at every point of a write
sequence, for a reader C whose start timestamp is after A's commit
timestamp: after a successful `CreateEntry` by A, C observes the created
entry through `GetEntry` and through `Scan`; after a successful `AlterEntry`
by A (with C's name resolution agreeing with the writer's on the pre-state),
C's `GetEntry` returns exactly the new version A installed — the alteration
of the previously visible payload, stamped with A's transaction id; after a
successful `DropEntry` by A, C's `GetEntry` for the name falls through to
the default generator (in particular, reports the name absent when no
default exists). -/
theorem snapshot_isolation :
    (∀ (tm tmr : TransactionManager) (ops : List CatalogOp) (txnA txnB : Transaction)
        (cs : CatalogSet) (c : Nat),
      (∀ op ∈ ops, op.isWrite = true) → SlotInv cs →
      tmr.commitOf txnA.id = some c → txnB.startTime < c → txnB.id ≠ txnA.id →
      (∀ name, GetEntry tmr txnB (applyOps tm txnA ops cs) name = GetEntry tmr txnB cs name) ∧
      Scan tmr txnB (applyOps tm txnA ops cs) = Scan tmr txnB cs) ∧
    (∀ (tm tmr : TransactionManager) (txnA txnC : Transaction) (cs cs' : CatalogSet)
        (n : String) (p : Nat) (d : List Nat) (c : Nat),
      CreateEntry tm txnA cs n p d = (true, cs') →
      tmr.commitOf txnA.id = some c → c < txnC.startTime →
      ∃ v, GetEntry tmr txnC cs' n = some v ∧ v.payload = p ∧ v.name = n) ∧
    (∀ (tm tmr : TransactionManager) (txnA txnC : Transaction) (cs cs' : CatalogSet)
        (n : String) (p : Nat) (d : List Nat) (c : Nat),
      CreateEntry tm txnA cs n p d = (true, cs') →
      tmr.commitOf txnA.id = some c → c < txnC.startTime →
      { name := n, payload := p, timestamp := txnA.id, deleted := false } ∈
        Scan tmr txnC cs') ∧
    (∀ (tm tmr : TransactionManager) (txnA txnC : Transaction) (cs cs' : CatalogSet)
        (n : String) (f : Nat → Nat) (c : Nat) (b : MappingValue) (chain : List CatalogEntry)
        (v : CatalogEntry),
      AlterEntry tm txnA cs n f = (.ok, cs') →
      GetMapping tm txnA cs n = some b →
      GetMapping tmr txnC cs n = some b →
      lookupAssoc cs.entries b.index = some chain →
      GetEntryForTransaction tm txnA chain = some v →
      tmr.commitOf txnA.id = some c → c < txnC.startTime →
      GetEntry tmr txnC cs' n =
        some { name := n, payload := f v.payload, timestamp := txnA.id, deleted := false }) ∧
    (∀ (tm tmr : TransactionManager) (txnA txnC : Transaction) (cs cs' : CatalogSet)
        (n : String) (cascade : Bool) (c : Nat),
      DropEntry tm txnA cs n cascade = (.ok, cs') →
      tmr.commitOf txnA.id = some c → c < txnC.startTime →
      GetEntry tmr txnC cs' n = genDefault cs n) := by
  refine ⟨?_, ?_, ?_, ?_, ?_⟩
  · intro tm tmr ops txnA txnB cs c hw hinv hc hlt hne
    have hinvis : UseTimestamp tmr txnB txnA.id = false :=
      UseTimestamp_committed_after tmr txnB (Ne.symm hne) hc (Nat.le_of_lt hlt)
    have hext : WriteExt txnA.id cs (applyOps tm txnA ops cs) :=
      applyOps_writeExt tm txnA ops cs hw hinv
    exact ⟨GetEntry_ext tmr txnB hext hinvis, Scan_ext tmr txnB hext hinvis⟩
  · intro tm tmr txnA txnC cs cs' n p d c h hc hlt
    have hvis : UseTimestamp tmr txnC txnA.id = true :=
      UseTimestamp_committed_before tmr txnC hc hlt
    exact ⟨_, GetEntry_after_create h hvis, rfl, rfl⟩
  · intro tm tmr txnA txnC cs cs' n p d c h hc hlt
    have hvis : UseTimestamp tmr txnC txnA.id = true :=
      UseTimestamp_committed_before tmr txnC hc hlt
    obtain ⟨_, hent, _, _⟩ := CreateEntry_success h
    rw [Scan, scanList_eq_filterMap]
    refine List.mem_filterMap.mpr ⟨(cs.current_entry,
      [{ name := n, payload := p, timestamp := txnA.id, deleted := false }]), ?_, ?_⟩
    · rw [hent]
      exact mem_setAssoc_self cs.entries cs.current_entry _
    · unfold visibleLive GetEntryForTransaction
      simp [firstVisible, hvis]
  · intro tm tmr txnA txnC cs cs' n f c b chain v h hb hbc hl hv hc hlt
    have hvis : UseTimestamp tmr txnC txnA.id = true :=
      UseTimestamp_committed_before tmr txnC hc hlt
    obtain ⟨b2, head, rest, v2, hb2, hbd2, hl2, hv2, rfl⟩ := AlterEntry_ok h
    obtain rfl : b = b2 := by
      rw [hb] at hb2
      injection hb2
    obtain rfl : chain = head :: rest := by
      rw [hl] at hl2
      injection hl2
    obtain rfl : v = v2 := by
      rw [hv] at hv2
      injection hv2
    have hm2 : GetMapping tmr txnC
        { cs with entries := (setAssoc cs.entries b.index
          ({ name := n, payload := f v.payload, timestamp := txnA.id, deleted := false } ::
            head :: rest)) } n = some b := hbc
    unfold GetEntry
    rw [hm2]
    dsimp only
    rw [if_neg (by rw [hbd2]; exact Bool.false_ne_true)]
    unfold resolveAt
    rw [lookupAssoc_setAssoc_self]
    simp [firstVisible, hvis]
  · intro tm tmr txnA txnC cs cs' n cascade c h hc hlt
    have hvis : UseTimestamp tmr txnC txnA.id = true :=
      UseTimestamp_committed_before tmr txnC hc hlt
    obtain ⟨b, hb, hmap, hdef⟩ := DropEntry_ok h
    have hm2 : GetMapping tmr txnC cs' n =
        some { index := b.index, timestamp := txnA.id, deleted := true } := by
      unfold GetMapping resolveAt
      rw [hmap, lookupAssoc_setAssoc_self]
      simp [firstVisible, hvis]
    unfold GetEntry
    rw [hm2]
    dsimp only
    rw [if_pos rfl]
    unfold genDefault
    rw [hdef]

/-- C2 witness: transaction 30 creates "x" in the empty catalog; under the
view where 30 committed at 7, the early reader (start 5) still scans the
empty catalog, while the late reader (start 9) reads the created entry back,
reads back the altered payload after an alter of "orders", and finds
"orders" absent after a drop. -/
theorem snapshot_isolation_witness :
    Scan tmLate txnEarly
        (applyOps tmW txnA30 [CatalogOp.createOp "x" 3 []] csEmpty) =
      Scan tmLate txnEarly csEmpty ∧
    (GetEntry tmLate txnLater (CreateEntry tmW txnA30 csEmpty "x" 3 []).2 "x").map
      CatalogEntry.payload = some 3 ∧
    GetEntry tmLate txnLater
        (AlterEntry tmW txnA30 csNames "orders" (fun p => p + 1)).2 "orders" =
      some { name := "orders", payload := 8, timestamp := 30, deleted := false } ∧
    GetEntry tmLate txnLater (DropEntry tmW txnA30 csNames "orders" false).2 "orders" =
      none := by
  refine ⟨?_, ?_, ?_, ?_⟩
  · exact (snapshot_isolation.1 tmW tmLate [CatalogOp.createOp "x" 3 []] txnA30 txnEarly
      csEmpty 7 (by intro op hop; simp at hop; rw [hop]; rfl)
      (by intro p hp; simp [csEmpty] at hp) (by decide) (by decide) (by decide)).2
  · obtain ⟨v, hv, hp, _⟩ := snapshot_isolation.2.1 tmW tmLate txnA30 txnLater csEmpty
      (CreateEntry tmW txnA30 csEmpty "x" 3 []).2 "x" 3 [] 7 rfl (by decide) (by decide)
    rw [hv]
    simp [hp]
  · exact snapshot_isolation.2.2.2.1 tmW tmLate txnA30 txnLater csNames
      (AlterEntry tmW txnA30 csNames "orders" (fun p => p + 1)).2 "orders" (fun p => p + 1)
      7 ⟨0, 1, false⟩ [⟨"orders", 7, 1, false⟩] ⟨"orders", 7, 1, false⟩
      rfl (by decide) (by decide) (by decide) (by decide) rfl (by decide)
  · have h := snapshot_isolation.2.2.2.2 tmW tmLate txnA30 txnLater csNames
      (DropEntry tmW txnA30 csNames "orders" false).2 "orders" false 7
      rfl rfl (by decide)
    rw [h]
    decide
